import Mathlib

/-!
Verification of `lsmr_proc.py`: a process-pool coordination framework with a
range partitioner (`_split`), a worker message loop (`_message_loop`), data
distribution (`send_same_data`, `split_list_and_send`), remote dispatch
(`run_function`) and result aggregation (`concat_var_into_list`,
`concat_var_into_numpy_array`).

Embedding conventions:
* Python values appearing in the protocol are modelled by the inductive
  `PyVal` (strings, integers, lists).  Lists model both Python lists and
  numpy arrays (the spec treats dense arrays as a library capability).
* Python dicts are modelled as `String → Option PyVal`; key-iteration order
  is unobservable in the modelled operations (dict keys are unique), so the
  function model is faithful for them.
* `int(length * i / num_splits)` on non-negative operands truncates toward
  zero, i.e. it is the floor of the quotient; it is modelled by exact natural
  division (exact for all inputs representable without rounding).
* An uncaught Python exception (KeyError, TypeError, the explicit
  `raise Exception` in `run_function`) is modelled by an explicit error
  outcome; a `recv` that would block forever (the peer died or never sends)
  is modelled by `none`.
-/

namespace LsmrProc

/-- Python's `int(length * i / num_splits)` breakpoint of `_split`
(`indices[i]` in the source): `start + ⌊length * i / num_splits⌋`. -/
def bp (start : Int) (length num_splits i : Nat) : Int :=
  start + ((length * i / num_splits : Nat) : Int)

/-- The `else` branch of `_split` (`length < num_splits`): the loop
`for i in range(0, num_splits)` with the running cursor `index`, emitting
`(index, 1)` and advancing while `index < start + length`, and `(index, 0)`
afterwards. -/
def _splitSpecial (start : Int) (length : Nat) : Nat → Int → List (Int × Int)
  | 0, _ => []
  | n + 1, index =>
      if index < start + (length : Int) then
        (index, 1) :: _splitSpecial start length n (index + 1)
      else
        (index, 0) :: _splitSpecial start length n index

/-- `_split(start, length, num_splits)` from the source.  Standard case
(`length >= num_splits`): breakpoints `indices[i] = bp i`; pair `i` is
`(indices[i], indices[i+1] - indices[i])` for `i < num_splits - 1`, and the
final pair is `(indices[-1], start + length - indices[-1])`.  Otherwise the
special-case loop `_splitSpecial` runs with the cursor starting at `start`. -/
def _split (start : Int) (length num_splits : Nat) : List (Int × Int) :=
  if num_splits ≤ length then
    (List.range (num_splits - 1)).map
        (fun i => (bp start length num_splits i,
                   bp start length num_splits (i + 1) - bp start length num_splits i))
      ++ [(bp start length num_splits (num_splits - 1),
           start + (length : Int) - bp start length num_splits (num_splits - 1))]
  else
    _splitSpecial start length num_splits start

/-- `tilesExactly a b ps`: the pairs `ps` are consecutive non-negative-length
ranges starting exactly at `a` and ending exactly at `b`: pair `(o, l)` has
`o = a`, `l ≥ 0`, and the rest tiles `[a + l, b)`. -/
def tilesExactly : Int → Int → List (Int × Int) → Prop
  | a, b, [] => a = b
  | a, b, (o, l) :: rest => o = a ∧ 0 ≤ l ∧ tilesExactly (a + l) b rest

theorem tilesExactly_nil {a b : Int} : tilesExactly a b [] ↔ a = b := Iff.rfl

theorem tilesExactly_cons {a b o l : Int} {rest : List (Int × Int)} :
    tilesExactly a b ((o, l) :: rest) ↔
      o = a ∧ 0 ≤ l ∧ tilesExactly (a + l) b rest := Iff.rfl

theorem tilesExactly_le {a b : Int} {ps : List (Int × Int)}
    (h : tilesExactly a b ps) : a ≤ b := by
  induction ps generalizing a with
  | nil => exact le_of_eq h
  | cons p rest ih =>
      obtain ⟨o, l⟩ := p
      obtain ⟨-, hl, ht⟩ := h
      have := ih ht
      omega

theorem tilesExactly_mem {a b : Int} {ps : List (Int × Int)}
    (h : tilesExactly a b ps) :
    ∀ p ∈ ps, a ≤ p.1 ∧ 0 ≤ p.2 ∧ p.1 + p.2 ≤ b := by
  induction ps generalizing a with
  | nil => intro p hp; cases hp
  | cons q rest ih =>
      obtain ⟨o, l⟩ := q
      obtain ⟨ho, hl, ht⟩ := h
      intro p hp
      rcases List.mem_cons.mp hp with h1 | h1
      · subst h1
        have := tilesExactly_le ht
        exact ⟨le_of_eq ho.symm, hl, by simpa [ho] using this⟩
      · have := ih ht p h1
        omega

theorem tilesExactly_sum {a b : Int} {ps : List (Int × Int)}
    (h : tilesExactly a b ps) : (ps.map Prod.snd).sum = b - a := by
  induction ps generalizing a with
  | nil => simp [tilesExactly_nil.mp h]
  | cons q rest ih =>
      obtain ⟨o, l⟩ := q
      obtain ⟨-, -, ht⟩ := h
      have := ih ht
      simp only [List.map_cons, List.sum_cons, this]
      ring

theorem tilesExactly_append {a b c : Int} {xs ys : List (Int × Int)}
    (hx : tilesExactly a b xs) (hy : tilesExactly b c ys) :
    tilesExactly a c (xs ++ ys) := by
  induction xs generalizing a with
  | nil => simpa [tilesExactly_nil.mp hx] using hy
  | cons q rest ih =>
      obtain ⟨o, l⟩ := q
      obtain ⟨ho, hl, ht⟩ := hx
      exact ⟨ho, hl, ih ht⟩

theorem tilesExactly_cover {a b : Int} {ps : List (Int × Int)}
    (h : tilesExactly a b ps) :
    ∀ x : Int, (a ≤ x ∧ x < b) ↔ ∃ p ∈ ps, p.1 ≤ x ∧ x < p.1 + p.2 := by
  induction ps generalizing a with
  | nil =>
      intro x
      have hab : a = b := tilesExactly_nil.mp h
      subst hab
      simp
  | cons q rest ih =>
      obtain ⟨o, l⟩ := q
      obtain ⟨ho, hl, ht⟩ := h
      intro x
      have hab : a + l ≤ b := tilesExactly_le ht
      constructor
      · rintro ⟨hax, hxb⟩
        by_cases hx : x < a + l
        · exact ⟨(o, l), List.mem_cons_self _ _, by simpa [ho] using ⟨hax, hx⟩⟩
        · obtain ⟨p, hp, hpx⟩ := ((ih ht x).mp ⟨by omega, hxb⟩)
          exact ⟨p, List.mem_cons_of_mem _ hp, hpx⟩
      · rintro ⟨p, hp, hp1, hp2⟩
        rcases List.mem_cons.mp hp with h1 | h1
        · subst h1
          simp only [ho] at hp1 hp2
          omega
        · have := (ih ht x).mpr ⟨p, h1, hp1, hp2⟩
          omega

theorem tilesExactly_pairwise {a b : Int} {ps : List (Int × Int)}
    (h : tilesExactly a b ps) :
    List.Pairwise (fun p q : Int × Int => p.1 ≤ q.1 ∧ p.1 + p.2 ≤ q.1) ps := by
  induction ps generalizing a with
  | nil => exact List.Pairwise.nil
  | cons q rest ih =>
      obtain ⟨o, l⟩ := q
      obtain ⟨ho, hl, ht⟩ := h
      refine List.Pairwise.cons ?_ (ih ht)
      intro p hp
      have := tilesExactly_mem ht p hp
      constructor <;> omega

theorem tilesExactly_getLast {a b o l : Int} {ps : List (Int × Int)}
    (h : tilesExactly a b ps) (hlast : ps.getLast? = some (o, l)) :
    o + l = b := by
  induction ps generalizing a with
  | nil => simp at hlast
  | cons q rest ih =>
      obtain ⟨o', l'⟩ := q
      obtain ⟨ho, hl, ht⟩ := h
      cases rest with
      | nil =>
          simp [List.getLast?] at hlast
          obtain ⟨h1, h2⟩ := hlast
          have : a + l' = b := tilesExactly_nil.mp ht
          omega
      | cons r rs =>
          have : (r :: rs).getLast? = some (o, l) := by
            simpa [List.getLast?_cons_cons] using hlast
          exact ih ht this

theorem bp_mono (start : Int) (length num_splits : Nat) (i : Nat) :
    bp start length num_splits i ≤ bp start length num_splits (i + 1) := by
  unfold bp
  have : length * i / num_splits ≤ length * (i + 1) / num_splits :=
    Nat.div_le_div_right (Nat.mul_le_mul_left _ (by omega))
  omega

theorem bp_zero (start : Int) (length num_splits : Nat) :
    bp start length num_splits 0 = start := by
  simp [bp]

theorem bp_le (start : Int) (length num_splits i : Nat) (h : 1 ≤ num_splits)
    (hi : i ≤ num_splits) :
    bp start length num_splits i ≤ start + (length : Int) := by
  unfold bp
  have h1 : length * i / num_splits ≤ length * num_splits / num_splits :=
    Nat.div_le_div_right (Nat.mul_le_mul_left _ hi)
  have h2 : length * num_splits / num_splits = length :=
    Nat.mul_div_cancel _ (by omega)
  omega

/-- The chain of pairs built from consecutive values of a monotone breakpoint
function tiles the interval between the first and the last breakpoint. -/
theorem tiles_range_map (g : Nat → Int) (mono : ∀ i, g i ≤ g (i + 1)) :
    ∀ (k j : Nat),
      tilesExactly (g j) (g (j + k))
        ((List.range k).map (fun i => (g (j + i), g (j + i + 1) - g (j + i)))) := by
  intro k
  induction k with
  | zero => intro j; simp [tilesExactly]
  | succ k ih =>
      intro j
      rw [List.range_succ_eq_map, List.map_cons, List.map_map]
      refine ⟨by simp, by have := mono j; simp; omega, ?_⟩
      have harg : ((fun i => (g (j + i), g (j + i + 1) - g (j + i))) ∘ Nat.succ)
          = fun i => (g (j + 1 + i), g (j + 1 + i + 1) - g (j + 1 + i)) := by
        funext i
        have h1 : j + Nat.succ i = j + 1 + i := by omega
        have h2 : j + Nat.succ i + 1 = j + 1 + i + 1 := by omega
        simp [Function.comp, h1, h2]
      have hend : j + (k + 1) = (j + 1) + k := by omega
      have hg : g j + (g (j + 0 + 1) - g (j + 0)) = g (j + 1) := by
        simp
      rw [harg, hend, hg]
      exact ih (j + 1)

theorem splitSpecial_length (start : Int) (length : Nat) :
    ∀ (n : Nat) (index : Int), (_splitSpecial start length n index).length = n := by
  intro n
  induction n with
  | zero => intro index; rfl
  | succ n ih =>
      intro index
      unfold _splitSpecial
      by_cases h : index < start + (length : Int) <;> simp [h, ih]

theorem splitSpecial_tiles (start : Int) (length : Nat) :
    ∀ (n j : Nat), j ≤ length → length ≤ j + n →
      tilesExactly (start + (j : Int)) (start + (length : Int))
        (_splitSpecial start length n (start + (j : Int))) := by
  intro n
  induction n with
  | zero =>
      intro j h1 h2
      have : j = length := by omega
      subst this
      simp [_splitSpecial, tilesExactly]
  | succ n ih =>
      intro j h1 h2
      unfold _splitSpecial
      by_cases h : start + (j : Int) < start + (length : Int)
      · have hj : j < length := by omega
        rw [if_pos h]
        refine ⟨rfl, by omega, ?_⟩
        have hcast : start + (j : Int) + 1 = start + ((j + 1 : Nat) : Int) := by
          push_cast; ring
        rw [hcast]
        exact ih (j + 1) (by omega) (by omega)
      · have hj : j = length := by omega
        rw [if_neg h]
        refine ⟨rfl, by omega, ?_⟩
        have hcast : start + (j : Int) + 0 = start + (j : Int) := by ring
        rw [hcast]
        exact ih j (by omega) (by omega)

/-- Closed form of the special-case loop: starting the cursor at
`start + j`, the first `length - j` pairs get one unit each at consecutive
offsets, the rest are `(start + length, 0)`. -/
theorem splitSpecial_eq (start : Int) (length : Nat) :
    ∀ (n j : Nat), j ≤ length →
      _splitSpecial start length n (start + (j : Int)) =
        (List.range n).map (fun i =>
          if j + i < length then (start + ((j + i : Nat) : Int), (1 : Int))
          else (start + (length : Int), (0 : Int))) := by
  intro n
  induction n with
  | zero => intro j _; rfl
  | succ n ih =>
      intro j hj
      rw [List.range_succ_eq_map, List.map_cons, List.map_map]
      unfold _splitSpecial
      by_cases h : start + (j : Int) < start + (length : Int)
      · have hjl : j < length := by omega
        rw [if_pos h]
        have hhead : (if j + 0 < length then (start + ((j + 0 : Nat) : Int), (1 : Int))
            else (start + (length : Int), (0 : Int))) = (start + (j : Int), (1 : Int)) := by
          rw [if_pos (by omega)]
          simp
        rw [hhead]
        congr 1
        have hcast : start + (j : Int) + 1 = start + ((j + 1 : Nat) : Int) := by
          push_cast; ring
        rw [hcast, ih (j + 1) (by omega)]
        apply List.map_congr_left
        intro i _
        have h1 : j + Nat.succ i = j + 1 + i := by omega
        have h2 : (j + Nat.succ i : Nat) = (j + 1 + i : Nat) := by omega
        simp only [Function.comp_apply, h1, h2]
      · have hjl : j = length := by omega
        rw [if_neg h]
        have hhead : (if j + 0 < length then (start + ((j + 0 : Nat) : Int), (1 : Int))
            else (start + (length : Int), (0 : Int))) = (start + (j : Int), (0 : Int)) := by
          rw [if_neg (by omega)]
          rw [hjl]
        rw [hhead]
        congr 1
        rw [ih j hj]
        apply List.map_congr_left
        intro i _
        have h1 : ¬ j + Nat.succ i < length := by omega
        have h2 : ¬ j + i < length := by omega
        simp only [Function.comp_apply, if_neg h1, if_neg h2]

/-- Both branches of `_split` tile `[start, start + length)` exactly,
for `num_splits ≥ 1`. -/
theorem split_tilesExactly (start : Int) (length num_splits : Nat)
    (h : 1 ≤ num_splits) :
    tilesExactly start (start + (length : Int)) (_split start length num_splits) := by
  unfold _split
  by_cases hc : num_splits ≤ length
  · rw [if_pos hc]
    have hchain := tiles_range_map (bp start length num_splits)
      (bp_mono start length num_splits) (num_splits - 1) 0
    simp only [Nat.zero_add] at hchain
    rw [bp_zero] at hchain
    refine tilesExactly_append hchain ?_
    refine ⟨rfl, ?_, ?_⟩
    · have := bp_le start length num_splits (num_splits - 1) h (by omega)
      omega
    · show tilesExactly _ _ []
      rw [tilesExactly_nil]
      ring
  · rw [if_neg hc]
    have := splitSpecial_tiles start length num_splits 0 (by omega) (by omega)
    simpa using this

theorem split_length (start : Int) (length num_splits : Nat)
    (h : 1 ≤ num_splits) :
    (_split start length num_splits).length = num_splits := by
  unfold _split
  by_cases hc : num_splits ≤ length
  · rw [if_pos hc]
    simp
    omega
  · rw [if_neg hc]
    exact splitSpecial_length start length num_splits start

/-- C1: for every integer `start`, every `length ≥ 0` and every
`numSplits ≥ 1`, `_split start length numSplits` returns exactly `numSplits`
pairs, whose lengths are non-negative and sum to `length`, whose offsets are
non-decreasing (pairwise, each range even ends before the next offset, so
there is no overlap), and whose ranges `[offset, offset+length)` cover
exactly `[start, start+length)` (no gaps, no escapes). -/
theorem C1_partitioner_tiles (start : Int) (length num_splits : Nat)
    (h : 1 ≤ num_splits) :
    (_split start length num_splits).length = num_splits ∧
    ((_split start length num_splits).map Prod.snd).sum = (length : Int) ∧
    (∀ p ∈ _split start length num_splits, 0 ≤ p.2) ∧
    List.Pairwise (fun p q : Int × Int => p.1 ≤ q.1 ∧ p.1 + p.2 ≤ q.1)
      (_split start length num_splits) ∧
    (∀ x : Int, (start ≤ x ∧ x < start + (length : Int)) ↔
      ∃ p ∈ _split start length num_splits, p.1 ≤ x ∧ x < p.1 + p.2) := by
  have ht := split_tilesExactly start length num_splits h
  refine ⟨split_length start length num_splits h, ?_, ?_, ?_, ?_⟩
  · have := tilesExactly_sum ht
    omega
  · intro p hp
    exact (tilesExactly_mem ht p hp).2.1
  · exact tilesExactly_pairwise ht
  · exact tilesExactly_cover ht

/-- Witness for C1 at `start = -5`, `length = 7`, `numSplits = 3`. -/
theorem C1_partitioner_tiles_witness :
    (1 : Nat) ≤ 3 ∧
    ((_split (-5) 7 3).length = 3 ∧
     ((_split (-5) 7 3).map Prod.snd).sum = ((7 : Nat) : Int) ∧
     (∀ p ∈ _split (-5) 7 3, 0 ≤ p.2) ∧
     List.Pairwise (fun p q : Int × Int => p.1 ≤ q.1 ∧ p.1 + p.2 ≤ q.1)
       (_split (-5) 7 3) ∧
     (∀ x : Int, ((-5) ≤ x ∧ x < (-5) + ((7 : Nat) : Int)) ↔
       ∃ p ∈ _split (-5) 7 3, p.1 ≤ x ∧ x < p.1 + p.2)) :=
  ⟨by decide, C1_partitioner_tiles (-5) 7 3 (by decide)⟩

/-- C2 counterexample: `_split 0 10 4` is NOT the list
`[(0,2),(2,2),(4,3),(7,3)]` stated by the claim: the code's pair `i` has
length `indices[i+1] - indices[i]`, giving `[(0,2),(2,3),(5,2),(7,3)]`. -/
theorem C2_split_0_10_4_counterexample :
    _split 0 10 4 ≠ [(0, 2), (2, 2), (4, 3), (7, 3)] := by decide

/-- C2 (amended): `_split 0 10 4 = [(0,2),(2,3),(5,2),(7,3)]`: the offsets
are the breakpoints `bp i = start + ⌊length * i / numSplits⌋ = 0,2,5,7`,
each pair's length is the gap to the next breakpoint, and the last pair
absorbs the rounding remainder so the lengths total 10. -/
theorem C2_split_0_10_4 :
    _split 0 10 4 = [(0, 2), (2, 3), (5, 2), (7, 3)] ∧
    (_split 0 10 4).map Prod.fst =
      [bp 0 10 4 0, bp 0 10 4 1, bp 0 10 4 2, bp 0 10 4 3] ∧
    ((_split 0 10 4).map Prod.snd).sum = 10 := by decide

/-- C3: in the degenerate case `length < numSplits`, `_split` assigns one
unit to each of the first `length` pairs at consecutive offsets from `start`
and length 0 to every remaining pair at offset `start + length`; in
particular `_split 0 3 4 = [(0,1),(1,1),(2,1),(3,0)]`. -/
theorem C3_split_degenerate (start : Int) (length num_splits : Nat)
    (h : length < num_splits) :
    _split start length num_splits =
      (List.range num_splits).map (fun i =>
        if i < length then (start + (i : Int), (1 : Int))
        else (start + (length : Int), (0 : Int))) ∧
    _split 0 3 4 = [(0, 1), (1, 1), (2, 1), (3, 0)] := by
  constructor
  · unfold _split
    rw [if_neg (by omega)]
    have := splitSpecial_eq start length num_splits 0 (by omega)
    simpa using this
  · decide

/-- Witness for C3 at `start = 7`, `length = 2`, `numSplits = 5`. -/
theorem C3_split_degenerate_witness :
    2 < 5 ∧
    (_split 7 2 5 =
      (List.range 5).map (fun i =>
        if i < 2 then ((7 : Int) + (i : Int), (1 : Int))
        else ((7 : Int) + ((2 : Nat) : Int), (0 : Int))) ∧
     _split 0 3 4 = [(0, 1), (1, 1), (2, 1), (3, 0)]) :=
  ⟨by decide, C3_split_degenerate 7 2 5 (by decide)⟩

/-- Python values carried by the protocol: strings, integers and lists
(lists also model numpy arrays, which the spec treats as a library type). -/
inductive PyVal where
  | str : String → PyVal
  | int : Int → PyVal
  | pylist : List PyVal → PyVal

/-- A Python dict with string keys (`request`, `_process_data`, `arg_dict`).
Key-iteration order is unobservable in the modelled operations (dict keys
are unique), so a function model is faithful. -/
def Dict := String → Option PyVal

def emptyDict : Dict := fun _ => none

/-- `d[k] = v` — Python dict assignment. -/
def dictInsert (d : Dict) (k : String) (v : PyVal) : Dict :=
  fun k' => if k' = k then some v else d k'

/-- The `set_data` handler body:
`for key in request: if key != "op": _process_data[key] = request[key]`. -/
def mergeStore (store request : Dict) : Dict := fun k =>
  if k = "op" then store k
  else
    match request k with
    | some v => some v
    | none => store k

/-- The dispatch mechanism (`globals()` lookup by name).  A registered
operation takes the request dict and the participant's store and returns
the updated store; registered operations are modelled as total.  The same
registry is consulted by every worker and by the main process. -/
def Registry := String → Option (Dict → Dict → Dict)

/-- Outcome of one iteration of `_message_loop` on one request. -/
inductive StepOut where
  | stopped (store : Dict)
  | ran (store : Dict) (reply : Option PyVal)
  | crashed (store : Dict)

/-- One iteration of `_message_loop` of the worker runtime.  A missing
`"op"` key, a `get_var` for an unset variable, or a `run_function` request
without `"op_name"` raises KeyError (`crashed`).  Unknown discriminants and
unknown operation names are logged and ignored (`ran`, store unchanged).
A non-string `var_name` is `crashed` (the modelled store is string-keyed);
a non-string `op_name` is never found in `globals()` and is ignored. -/
def stepWorker (reg : Registry) (store : Dict) (request : Dict) : StepOut :=
  match request "op" with
  | none => .crashed store
  | some (.str op) =>
    if op = "shutdown" then .stopped store
    else if op = "set_data" then .ran (mergeStore store request) none
    else if op = "get_var" then
      match request "var_name" with
      | some (.str vn) =>
          match store vn with
          | some v => .ran store (some v)
          | none => .crashed store
      | _ => .crashed store
    else if op = "clear_all_data" then .ran emptyDict none
    else if op = "run_function" then
      match request "op_name" with
      | some (.str fn) =>
          match reg fn with
          | some f => .ran (f request store) none
          | none => .ran store none
      | some _ => .ran store none
      | none => .crashed store
    else .ran store none
  | some _ => .ran store none

/-- Outcome of a worker running `_message_loop` over a finite stream of
requests: it either returned normally (only on `shutdown`), died on an
uncaught exception, or consumed all requests and is blocked `Listening`
on `recv`.  Replies sent back on the channel are collected in order. -/
inductive LoopOut where
  | stopped (store : Dict) (replies : List PyVal)
  | crashed (store : Dict) (replies : List PyVal)
  | listening (store : Dict) (replies : List PyVal)

/-- `_message_loop` over a finite request stream. -/
def runLoop (reg : Registry) (store : Dict) : List Dict → LoopOut
  | [] => .listening store []
  | req :: rest =>
    match stepWorker reg store req with
    | .stopped st => .stopped st []
    | .crashed st => .crashed st []
    | .ran st rep =>
      match runLoop reg st rest with
      | .stopped s rs => .stopped s (rep.toList ++ rs)
      | .crashed s rs => .crashed s (rep.toList ++ rs)
      | .listening s rs => .listening s (rep.toList ++ rs)

/-- A spawned worker: whether its message loop is still running, and its
private `_process_data` store. -/
structure WorkerState where
  alive : Bool
  store : Dict

/-- The coordinator side: main's own `_process_data` and the workers, in
pipe order. -/
structure PoolState where
  main : Dict
  workers : List WorkerState

/-- Sending one request down a worker's pipe and letting the worker process
it.  Channels are FIFO and the coordinator is synchronous, so processing
can be modelled eagerly.  A stopped or crashed worker never processes the
request and never replies. -/
def workerHandle (reg : Registry) (w : WorkerState) (request : Dict) :
    WorkerState × Option PyVal :=
  if w.alive then
    match stepWorker reg w.store request with
    | .ran st rep => (⟨true, st⟩, rep)
    | .stopped st => (⟨false, st⟩, none)
    | .crashed st => (⟨false, st⟩, none)
  else (w, none)

/-- `send_same_data(data_dict)`: copy every entry into the main store, then
set `data_dict["op"] = "set_data"` — mutating the caller's dict, which is
the request object itself — and send it to every pipe.  Returns the new
pool state and the caller's (mutated) dict. -/
def send_same_data (reg : Registry) (s : PoolState) (data_dict : Dict) :
    PoolState × Dict :=
  let main' : Dict := fun k =>
    match data_dict k with
    | some v => some v
    | none => s.main k
  let req := dictInsert data_dict "op" (.str "set_data")
  (⟨main', s.workers.map (fun w => (workerHandle reg w req).1)⟩, req)

/-- Python exceptions distinguished by the model. -/
inductive PyErr where
  | invalidArgument
  | keyError
deriving DecidableEq

/-- Result of `run_function`: the exception raised (if any), the pool state
when control returns to the caller, and the caller's `arg_dict` (mutated
into the request unless the reserved-key check failed first). -/
structure RFResult where
  err : Option PyErr
  state : PoolState
  req : Dict

/-- `run_function(function_name, arg_dict)`: raise `invalidArgument` before
any send if `arg_dict` has `"op"` or `"op_name"`; otherwise inject both keys
into `arg_dict`, send it to every pipe, then invoke the operation locally
via `globals()[function_name]` — which raises KeyError (after the sends!)
when the name is not registered. -/
def run_function (reg : Registry) (s : PoolState) (function_name : String)
    (arg_dict : Dict) : RFResult :=
  if (arg_dict "op").isSome || (arg_dict "op_name").isSome then
    ⟨some .invalidArgument, s, arg_dict⟩
  else
    let req := dictInsert (dictInsert arg_dict "op" (.str "run_function"))
      "op_name" (.str function_name)
    let s1 : PoolState := ⟨s.main, s.workers.map (fun w => (workerHandle reg w req).1)⟩
    match reg function_name with
    | some f => ⟨none, ⟨f req s1.main, s1.workers⟩, req⟩
    | none => ⟨some .keyError, s1, req⟩

theorem map_id_of_mem {α : Type} {l : List α} {f : α → α}
    (h : ∀ a ∈ l, f a = a) : l.map f = l := by
  induction l with
  | nil => rfl
  | cons x xs ih =>
      simp only [List.map_cons, h x (List.mem_cons_self x xs),
        ih (fun a ha => h a (List.mem_cons_of_mem _ ha))]

/-- The discriminant values `_message_loop` recognises. -/
def knownOp (v : PyVal) : Prop :=
  v = .str "shutdown" ∨ v = .str "set_data" ∨ v = .str "get_var" ∨
    v = .str "clear_all_data" ∨ v = .str "run_function"

theorem stepWorker_set_data {reg : Registry} {store request : Dict}
    (hop : request "op" = some (PyVal.str "set_data")) :
    stepWorker reg store request = .ran (mergeStore store request) none := by
  unfold stepWorker
  rw [hop]
  simp

theorem stepWorker_get_var_found {reg : Registry} {store request : Dict}
    {vn : String} {v : PyVal}
    (hop : request "op" = some (PyVal.str "get_var"))
    (hvn : request "var_name" = some (PyVal.str vn))
    (hv : store vn = some v) :
    stepWorker reg store request = .ran store (some v) := by
  unfold stepWorker
  rw [hop]
  simp [hvn, hv]

theorem stepWorker_get_var_missing {reg : Registry} {store request : Dict}
    {vn : String}
    (hop : request "op" = some (PyVal.str "get_var"))
    (hvn : request "var_name" = some (PyVal.str vn))
    (hv : store vn = none) :
    stepWorker reg store request = .crashed store := by
  unfold stepWorker
  rw [hop]
  simp [hvn, hv]

theorem stepWorker_run_function_unknown {reg : Registry} {store request : Dict}
    {fn : String}
    (hop : request "op" = some (PyVal.str "run_function"))
    (hname : request "op_name" = some (PyVal.str fn))
    (hreg : reg fn = none) :
    stepWorker reg store request = .ran store none := by
  unfold stepWorker
  rw [hop]
  simp [hname, hreg]

theorem stepWorker_unknown {reg : Registry} {store request : Dict} {v : PyVal}
    (hop : request "op" = some v) (h : ¬ knownOp v) :
    stepWorker reg store request = .ran store none := by
  unfold stepWorker
  rw [hop]
  cases v with
  | str s =>
      simp only [knownOp, not_or] at h
      obtain ⟨h1, h2, h3, h4, h5⟩ := h
      have hs1 : s ≠ "shutdown" := fun hs => h1 (by rw [hs])
      have hs2 : s ≠ "set_data" := fun hs => h2 (by rw [hs])
      have hs3 : s ≠ "get_var" := fun hs => h3 (by rw [hs])
      have hs4 : s ≠ "clear_all_data" := fun hs => h4 (by rw [hs])
      have hs5 : s ≠ "run_function" := fun hs => h5 (by rw [hs])
      simp [hs1, hs2, hs3, hs4, hs5]
  | int n => rfl
  | pylist xs => rfl

theorem stepWorker_stopped_op {reg : Registry} {store request st : Dict}
    (h : stepWorker reg store request = .stopped st) :
    request "op" = some (PyVal.str "shutdown") := by
  unfold stepWorker at h
  repeat' split at h
  all_goals simp_all

theorem workerHandle_id {reg : Registry} {w : WorkerState} {request : Dict}
    (halive : w.alive = true)
    (hstep : stepWorker reg w.store request = .ran w.store none) :
    workerHandle reg w request = (w, none) := by
  obtain ⟨a, st⟩ := w
  simp only at halive
  subst halive
  simp only at hstep
  simp [workerHandle, hstep]

theorem workerHandle_alive {reg : Registry} {w : WorkerState} {request : Dict}
    {st : Dict} {rep : Option PyVal} (halive : w.alive = true)
    (hstep : stepWorker reg w.store request = .ran st rep) :
    workerHandle reg w request = (⟨true, st⟩, rep) := by
  unfold workerHandle
  rw [if_pos halive, hstep]

/-- A registry with no registered operations. -/
def regEx : Registry := fun _ => none

def worker0 : WorkerState := ⟨true, emptyDict⟩

/-- A pool with no workers (single-core machine: `cpu_count - 1 = 0`). -/
def pool0 : PoolState := ⟨emptyDict, []⟩

/-- A pool with one alive worker with an empty store. -/
def pool1 : PoolState := ⟨emptyDict, [worker0]⟩

def argOp : Dict := dictInsert emptyDict "op" (.str "x")

theorem run_function_reserved {reg : Registry} {s : PoolState} {fname : String}
    {e : Dict}
    (h : (e "op").isSome = true ∨ (e "op_name").isSome = true) :
    run_function reg s fname e = ⟨some PyErr.invalidArgument, s, e⟩ := by
  unfold run_function
  rw [if_pos (by rcases h with h | h <;> simp [h])]

/-- C5: `run_function` with `"op"` or `"op_name"` present in the argument
map raises the reserved-key exception (`invalidArgument`) locally, before
any message is sent: the pool state (all channels and every participant's
store) is returned unchanged and the caller's dict is not mutated.  With
neither key present, no such exception is raised. -/
theorem C5_reserved_key_guard (reg : Registry) (s : PoolState)
    (function_name : String) (arg_dict : Dict) :
    (((arg_dict "op").isSome = true ∨ (arg_dict "op_name").isSome = true) →
      run_function reg s function_name arg_dict =
        ⟨some PyErr.invalidArgument, s, arg_dict⟩) ∧
    (arg_dict "op" = none → arg_dict "op_name" = none →
      (run_function reg s function_name arg_dict).err ≠
        some PyErr.invalidArgument) := by
  constructor
  · intro h
    exact run_function_reserved h
  · intro h1 h2
    unfold run_function
    rw [if_neg (by simp [h1, h2])]
    cases hr : reg function_name <;> simp [hr]

/-- Witness for C5: an argument dict carrying `"op"` is rejected with the
pool untouched. -/
theorem C5_reserved_key_guard_witness :
    (argOp "op").isSome = true ∧
    run_function regEx pool0 "f" argOp =
      ⟨some PyErr.invalidArgument, pool0, argOp⟩ :=
  ⟨rfl, (C5_reserved_key_guard regEx pool0 "f" argOp).1 (Or.inl rfl)⟩

theorem run_function_req {reg : Registry} {s : PoolState} {fname : String}
    {d : Dict} (h1 : d "op" = none) (h2 : d "op_name" = none) :
    (run_function reg s fname d).req =
      dictInsert (dictInsert d "op" (PyVal.str "run_function"))
        "op_name" (PyVal.str fname) := by
  unfold run_function
  rw [if_neg (by simp [h1, h2])]
  cases hr : reg fname <;> simp [hr]

/-- C6 counterexample: with one alive worker, `run_function "doesNotExist" {}`
raises a KeyError in the main process (the local `globals()[function_name]`
lookup is unguarded) — so it is false that no participant crashes. -/
theorem C6_unknown_function_counterexample :
    (run_function regEx pool1 "doesNotExist" emptyDict).err =
      some PyErr.keyError := rfl

/-- C6 (amended): `run_function` with an operation name absent from the
registry crashes no worker: every worker stays alive with its store intact
and the pool state is returned unchanged (the pool remains usable for
subsequent calls); the main process, however, raises a KeyError from its own
unguarded local lookup, after the sends. -/
theorem C6_unknown_function (reg : Registry) (s : PoolState) (fname : String)
    (arg_dict : Dict) (hreg : reg fname = none)
    (h1 : arg_dict "op" = none) (h2 : arg_dict "op_name" = none)
    (halive : ∀ w ∈ s.workers, w.alive = true) :
    (run_function reg s fname arg_dict).err = some PyErr.keyError ∧
    (run_function reg s fname arg_dict).state = s := by
  have hreq_op : (dictInsert (dictInsert arg_dict "op" (PyVal.str "run_function"))
      "op_name" (PyVal.str fname)) "op" = some (PyVal.str "run_function") := by
    simp [dictInsert]
  have hreq_name : (dictInsert (dictInsert arg_dict "op" (PyVal.str "run_function"))
      "op_name" (PyVal.str fname)) "op_name" = some (PyVal.str fname) := by
    simp [dictInsert]
  have hmap : s.workers.map (fun w => (workerHandle reg w
      (dictInsert (dictInsert arg_dict "op" (PyVal.str "run_function"))
        "op_name" (PyVal.str fname))).1) = s.workers := by
    apply map_id_of_mem
    intro w hw
    rw [workerHandle_id (halive w hw)
      (stepWorker_run_function_unknown hreq_op hreq_name hreg)]
  constructor
  · unfold run_function
    rw [if_neg (by simp [h1, h2])]
    simp [hreg]
  · unfold run_function
    rw [if_neg (by simp [h1, h2])]
    simp only [hreg]
    show (⟨s.main, s.workers.map _⟩ : PoolState) = s
    rw [hmap]

/-- Witness for C6 (amended) at the concrete one-worker pool. -/
theorem C6_unknown_function_witness :
    regEx "doesNotExist" = none ∧
    ((run_function regEx pool1 "doesNotExist" emptyDict).err =
        some PyErr.keyError ∧
     (run_function regEx pool1 "doesNotExist" emptyDict).state = pool1) :=
  ⟨rfl, C6_unknown_function regEx pool1 "doesNotExist" emptyDict rfl rfl rfl
    (by intro w hw; rw [List.mem_singleton.mp hw]; rfl)⟩

/-- C7: (1) `_message_loop` returns — terminates normally — only if one of
the requests it consumed carries the `"shutdown"` discriminant; (2) a
request whose discriminant is present but unknown is logged and ignored:
the step leaves the store unchanged, sends no reply and does not crash, so
the loop goes back to `Listening`. -/
theorem C7_loop_shutdown_only (reg : Registry) :
    (∀ (store : Dict) (reqs : List Dict) (st : Dict) (rs : List PyVal),
        runLoop reg store reqs = .stopped st rs →
        ∃ req ∈ reqs, req "op" = some (PyVal.str "shutdown")) ∧
    (∀ (store request : Dict) (v : PyVal),
        request "op" = some v → ¬ knownOp v →
        stepWorker reg store request = .ran store none) := by
  constructor
  · intro store reqs
    induction reqs generalizing store with
    | nil =>
        intro st rs h
        simp [runLoop] at h
    | cons req rest ih =>
        intro st rs h
        unfold runLoop at h
        cases hs : stepWorker reg store req with
        | stopped st' =>
            exact ⟨req, List.mem_cons_self _ _, stepWorker_stopped_op hs⟩
        | crashed st' =>
            rw [hs] at h
            simp at h
        | ran st' rep =>
            rw [hs] at h
            simp only at h
            cases hr : runLoop reg st' rest with
            | stopped s2 rs2 =>
                obtain ⟨r, hr1, hr2⟩ := ih st' s2 rs2 hr
                exact ⟨r, List.mem_cons_of_mem _ hr1, hr2⟩
            | crashed s2 rs2 =>
                rw [hr] at h
                simp at h
            | listening s2 rs2 =>
                rw [hr] at h
                simp at h
  · intro store request v hop h
    exact stepWorker_unknown hop h

def reqBogus : Dict := dictInsert emptyDict "op" (.str "bogus")

/-- Witness for C7: a `{"op": "bogus"}` request is ignored by the step. -/
theorem C7_loop_shutdown_only_witness :
    reqBogus "op" = some (PyVal.str "bogus") ∧
    stepWorker regEx emptyDict reqBogus = .ran emptyDict none :=
  ⟨rfl, (C7_loop_shutdown_only regEx).2 emptyDict reqBogus (PyVal.str "bogus")
    rfl (by simp [knownOp])⟩

/-- C8: for an entries map without the reserved `"op"` key, after
`send_same_data(entries)` every participant's store maps each entry key to
its value, and (stores having lacked `"op"` beforehand, as every API-built
store does) no participant's store contains the reserved key `"op"`. -/
theorem C8_broadcast_fidelity (reg : Registry) (s : PoolState) (entries : Dict)
    (hop : entries "op" = none)
    (hmain : s.main "op" = none)
    (hw : ∀ w ∈ s.workers, w.alive = true ∧ w.store "op" = none) :
    (∀ k v, entries k = some v →
      ((send_same_data reg s entries).1.main k = some v ∧
       ∀ w' ∈ (send_same_data reg s entries).1.workers, w'.store k = some v)) ∧
    (send_same_data reg s entries).1.main "op" = none ∧
    (∀ w' ∈ (send_same_data reg s entries).1.workers, w'.store "op" = none) := by
  have hreq_op : (dictInsert entries "op" (PyVal.str "set_data")) "op" =
      some (PyVal.str "set_data") := by simp [dictInsert]
  refine ⟨?_, ?_, ?_⟩
  · intro k v hkv
    have hk : k ≠ "op" := by
      intro hke
      rw [hke, hop] at hkv
      cases hkv
    constructor
    · simp [send_same_data, hkv]
    · intro w' hw'
      simp only [send_same_data, List.mem_map] at hw'
      obtain ⟨w, hwmem, hweq⟩ := hw'
      obtain ⟨halive, hwop⟩ := hw w hwmem
      rw [← hweq, workerHandle_alive halive (stepWorker_set_data hreq_op)]
      show mergeStore w.store (dictInsert entries "op" (PyVal.str "set_data")) k
          = some v
      simp [mergeStore, dictInsert, hk, hkv]
  · simp [send_same_data, hop, hmain]
  · intro w' hw'
    simp only [send_same_data, List.mem_map] at hw'
    obtain ⟨w, hwmem, hweq⟩ := hw'
    obtain ⟨halive, hwop⟩ := hw w hwmem
    rw [← hweq, workerHandle_alive halive (stepWorker_set_data hreq_op)]
    show mergeStore w.store (dictInsert entries "op" (PyVal.str "set_data")) "op"
        = none
    simp [mergeStore, hwop]

def entries5 : Dict := dictInsert emptyDict "x" (.int 5)

/-- Witness for C8: broadcasting `{"x": 5}` over the one-worker pool. -/
theorem C8_broadcast_fidelity_witness :
    entries5 "op" = none ∧
    ((∀ k v, entries5 k = some v →
      ((send_same_data regEx pool1 entries5).1.main k = some v ∧
       ∀ w' ∈ (send_same_data regEx pool1 entries5).1.workers,
         w'.store k = some v)) ∧
     (send_same_data regEx pool1 entries5).1.main "op" = none ∧
     (∀ w' ∈ (send_same_data regEx pool1 entries5).1.workers,
        w'.store "op" = none)) :=
  ⟨rfl, C8_broadcast_fidelity regEx pool1 entries5 rfl rfl
    (by intro w hw; rw [List.mem_singleton.mp hw]; exact ⟨rfl, rfl⟩)⟩

/-- C10: `send_same_data` and `run_function` use the caller-supplied map as
the request object itself, so after `send_same_data` the caller's map
contains `"op" ↦ "set_data"`, after a successful reserved-key check
`run_function` leaves `"op"` and `"op_name"` in the caller's map, and
passing that same map to `run_function` again fails the reserved-key check
with `invalidArgument`. -/
theorem C10_request_aliasing (reg reg2 : Registry) (s s2 : PoolState)
    (fname fname2 : String) (d : Dict)
    (h1 : d "op" = none) (h2 : d "op_name" = none) :
    (send_same_data reg s d).2 "op" = some (PyVal.str "set_data") ∧
    (run_function reg s fname d).req "op" = some (PyVal.str "run_function") ∧
    (run_function reg s fname d).req "op_name" = some (PyVal.str fname) ∧
    (run_function reg2 s2 fname2 ((run_function reg s fname d).req)).err =
      some PyErr.invalidArgument := by
  have hreq := @run_function_req reg s fname d h1 h2
  refine ⟨?_, ?_, ?_, ?_⟩
  · simp [send_same_data, dictInsert]
  · rw [hreq]
    simp [dictInsert]
  · rw [hreq]
    simp [dictInsert]
  · rw [hreq, run_function_reserved (Or.inl (by simp [dictInsert]))]

/-- Witness for C10 starting from an empty argument dict. -/
theorem C10_request_aliasing_witness :
    emptyDict "op" = none ∧
    ((send_same_data regEx pool0 emptyDict).2 "op" =
        some (PyVal.str "set_data") ∧
     (run_function regEx pool0 "f" emptyDict).req "op" =
        some (PyVal.str "run_function") ∧
     (run_function regEx pool0 "f" emptyDict).req "op_name" =
        some (PyVal.str "f") ∧
     (run_function regEx pool1 "g" ((run_function regEx pool0 "f" emptyDict).req)).err =
        some PyErr.invalidArgument) :=
  ⟨rfl, C10_request_aliasing regEx regEx pool0 pool1 "f" "g" emptyDict rfl rfl⟩

/-- Python `data_list[i : i + l]` for the non-negative indices produced by
`_split`. -/
def pySlice (xs : List PyVal) (i l : Int) : List PyVal :=
  (xs.drop i.toNat).take l.toNat

/-- Python `data_list[i:]`. -/
def pySliceFrom (xs : List PyVal) (i : Int) : List PyVal :=
  xs.drop i.toNat

/-- The dict literal `{"op": "set_data", var_name: v}` (when
`var_name = "op"` the later entry wins, exactly as in Python). -/
def setDataReq (var_name : String) (v : PyVal) : Dict :=
  dictInsert (dictInsert emptyDict "op" (.str "set_data")) var_name v

/-- The dict literal `{"op": "get_var", "var_name": name}`. -/
def getVarReq (name : String) : Dict :=
  dictInsert (dictInsert emptyDict "op" (.str "get_var")) "var_name" (.str name)

/-- One iteration of the send loop of `split_list_and_send`: worker `i`
receives `{"op": "set_data", var_name: data_list[index : index + length]}`,
unless its computed `length` is 0, in which case nothing is sent. -/
def splitSendWorker (reg : Registry) (data_list : List PyVal)
    (var_name : String) (w : WorkerState) (p : Int × Int) : WorkerState :=
  if 0 < p.2 then
    (workerHandle reg w
      (setDataReq var_name (.pylist (pySlice data_list p.1 p.2)))).1
  else w

/-- `split_list_and_send(data_list, var_name)`: split over
`_cpu_count = len(_pipes) + 1` participants, send worker `i` its slice
(skipping empty slices), and store the final slice `data_list[index:]` in
the main store. -/
def split_list_and_send (reg : Registry) (s : PoolState)
    (data_list : List PyVal) (var_name : String) : PoolState :=
  let indices_and_lengths := _split 0 data_list.length (s.workers.length + 1)
  let lastPair := indices_and_lengths.getLast?.getD (0, 0)
  ⟨dictInsert s.main var_name (.pylist (pySliceFrom data_list lastPair.1)),
   List.zipWith (splitSendWorker reg data_list var_name) s.workers
     indices_and_lengths⟩

/-- The recv/accumulate loop of `concat_var_into_list`
(`var_list += pipe.recv()`): a missing reply (the worker died; `recv`
blocks forever) or a non-list reply (no list concatenation) yields `none`. -/
def collectLists : List (Option PyVal) → Option (List PyVal)
  | [] => some []
  | none :: _ => none
  | some (.pylist xs) :: rest => (collectLists rest).map (fun r => xs ++ r)
  | some _ :: _ => none

/-- `concat_var_into_list(var_name)`: send `get_var` to every pipe, then
receive in pipe order, concatenating the replies, and append the main
store's own value last.  A blocked recv or a missing/non-list value is the
`none` outcome. -/
def concat_var_into_list (reg : Registry) (s : PoolState) (var_name : String) :
    PoolState × Option (List PyVal) :=
  let handled := s.workers.map (fun w => workerHandle reg w (getVarReq var_name))
  let result :=
    match collectLists (handled.map Prod.snd) with
    | none => none
    | some acc =>
      match s.main var_name with
      | some (.pylist m) => some (acc ++ m)
      | _ => none
  (⟨s.main, handled.map Prod.fst⟩, result)

/-- `numpy.concatenate((a, b))` on the shapes this program builds: both
arguments must be (list-modelled) arrays; in particular the Python `None`
placeholder is not an array, so concatenating from it fails
(numpy: zero-dimensional arrays cannot be concatenated). -/
def numpy_concatenate : Option PyVal → PyVal → Option PyVal
  | some (.pylist xs), .pylist ys => some (.pylist (xs ++ ys))
  | _, _ => none

/-- The recv/accumulate loop of `concat_var_into_numpy_array`: `var_array`
starts as `None`; the first reply replaces it, each later reply is merged
with `numpy.concatenate`.  The outer `none` means the call failed (blocked
recv or a concatenate error). -/
def npFold : Option PyVal → List (Option PyVal) → Option (Option PyVal)
  | acc, [] => some acc
  | _, none :: _ => none
  | none, some v :: rest => npFold (some v) rest
  | some a, some v :: rest =>
      match numpy_concatenate (some a) v with
      | some c => npFold (some c) rest
      | none => none

/-- `concat_var_into_numpy_array(var_name)`: same request/collect sequence
as `concat_var_into_list`, merging with `numpy.concatenate` instead of list
append, then merging the main store's own value last. -/
def concat_var_into_numpy_array (reg : Registry) (s : PoolState)
    (var_name : String) : PoolState × Option PyVal :=
  let handled := s.workers.map (fun w => workerHandle reg w (getVarReq var_name))
  let result :=
    match npFold none (handled.map Prod.snd) with
    | none => none
    | some acc =>
      match s.main var_name with
      | some mv => numpy_concatenate acc mv
      | none => none
  (⟨s.main, handled.map Prod.fst⟩, result)

theorem getVarReq_op (name : String) :
    getVarReq name "op" = some (PyVal.str "get_var") := by
  simp [getVarReq, dictInsert]

theorem getVarReq_var (name : String) :
    getVarReq name "var_name" = some (PyVal.str name) := by
  simp [getVarReq, dictInsert]

theorem setDataReq_op {name : String} (hname : name ≠ "op") (v : PyVal) :
    setDataReq name v "op" = some (PyVal.str "set_data") := by
  simp [setDataReq, dictInsert, Ne.symm hname]

theorem setDataReq_name (name : String) (v : PyVal) :
    setDataReq name v name = some v := by
  simp [setDataReq, dictInsert]

theorem mergeStore_setData_name {st : Dict} {name : String}
    (hname : name ≠ "op") (v : PyVal) :
    mergeStore st (setDataReq name v) name = some v := by
  simp [mergeStore, hname, setDataReq_name]

theorem collectLists_pylists (ws : List (List PyVal)) :
    collectLists (ws.map (fun l => some (PyVal.pylist l))) = some ws.flatten := by
  induction ws with
  | nil => rfl
  | cons x xs ih => simp [collectLists, ih]

theorem workers_get_var {reg : Registry} {name : String}
    {workers : List WorkerState} {ws : List (List PyVal)}
    (h : List.Forall₂ (fun (w : WorkerState) (l : List PyVal) =>
        w.alive = true ∧ w.store name = some (.pylist l)) workers ws) :
    workers.map (fun w => (workerHandle reg w (getVarReq name)).2) =
      ws.map (fun l => some (PyVal.pylist l)) := by
  induction h with
  | nil => rfl
  | cons hwl hrest ih =>
      simp only [List.map_cons, ih]
      obtain ⟨halive, hstore⟩ := hwl
      rw [workerHandle_alive halive
        (stepWorker_get_var_found (getVarReq_op name) (getVarReq_var name) hstore)]

theorem npFold_pylists (ws : List (List PyVal)) :
    ∀ (a : List PyVal),
      npFold (some (.pylist a)) (ws.map (fun l => some (PyVal.pylist l))) =
        some (some (.pylist (a ++ ws.flatten))) := by
  induction ws with
  | nil => intro a; simp [npFold]
  | cons x xs ih =>
      intro a
      simp [npFold, numpy_concatenate, ih]

/-- C9: when every participant holds a list under `name`, the aggregation
order of `concat_var_into_list` is worker 0's elements, then worker 1's, …,
then worker K-1's, then main's own value, and (given at least one worker)
`concat_var_into_numpy_array` returns the same elements in the same order
merged by array concatenation. -/
theorem C9_aggregation_order (reg : Registry) (s : PoolState) (name : String)
    (ws : List (List PyVal)) (m : List PyVal)
    (hws : List.Forall₂ (fun (w : WorkerState) (l : List PyVal) =>
        w.alive = true ∧ w.store name = some (.pylist l)) s.workers ws)
    (hm : s.main name = some (.pylist m)) :
    (concat_var_into_list reg s name).2 = some (ws.flatten ++ m) ∧
    (ws ≠ [] →
      (concat_var_into_numpy_array reg s name).2 =
        some (.pylist (ws.flatten ++ m))) := by
  have hreplies :
      (s.workers.map (fun w => workerHandle reg w (getVarReq name))).map Prod.snd
        = ws.map (fun l => some (PyVal.pylist l)) := by
    rw [List.map_map]
    exact workers_get_var hws
  constructor
  · simp only [concat_var_into_list]
    rw [hreplies, collectLists_pylists, hm]
  · intro hne
    obtain ⟨x, xs, rfl⟩ := List.exists_cons_of_ne_nil hne
    simp only [concat_var_into_numpy_array]
    rw [hreplies]
    simp only [List.map_cons]
    rw [show npFold none (some (PyVal.pylist x) ::
          xs.map (fun l => some (PyVal.pylist l))) =
        npFold (some (PyVal.pylist x)) (xs.map (fun l => some (PyVal.pylist l)))
      from rfl]
    rw [npFold_pylists, hm]
    simp [numpy_concatenate, List.append_assoc]

/-- A zero-worker pool whose main store holds `x = []`. -/
def pool0m : PoolState := ⟨dictInsert emptyDict "x" (.pylist []), []⟩

def workerX : WorkerState := ⟨true, dictInsert emptyDict "x" (.pylist [.int 1])⟩

/-- A one-worker pool: worker holds `x = [1]`, main holds `x = [2]`. -/
def poolX : PoolState := ⟨dictInsert emptyDict "x" (.pylist [.int 2]), [workerX]⟩

/-- C9 counterexample: on a single-core pool (zero workers) with
`x = []` in the main store, `concat_var_into_list` returns main's value but
`concat_var_into_numpy_array` fails — `numpy.concatenate((None, main))`
with the `None` placeholder never replaced — so the claim's `K ≥ 0` range
is wrong for the numpy variant. -/
theorem C9_aggregation_order_counterexample :
    (concat_var_into_numpy_array regEx pool0m "x").2 = none ∧
    (concat_var_into_list regEx pool0m "x").2 = some [] := ⟨rfl, rfl⟩

/-- Witness for C9 on a one-worker pool. -/
theorem C9_aggregation_order_witness :
    (concat_var_into_list regEx poolX "x").2 =
      some ([[PyVal.int 1]].flatten ++ [PyVal.int 2]) ∧
    (concat_var_into_numpy_array regEx poolX "x").2 =
      some (.pylist ([[PyVal.int 1]].flatten ++ [PyVal.int 2])) :=
  ⟨(C9_aggregation_order regEx poolX "x" [[.int 1]] [.int 2]
      (List.Forall₂.cons ⟨rfl, rfl⟩ List.Forall₂.nil) rfl).1,
   (C9_aggregation_order regEx poolX "x" [[.int 1]] [.int 2]
      (List.Forall₂.cons ⟨rfl, rfl⟩ List.Forall₂.nil) rfl).2
     (List.cons_ne_nil _ _)⟩

theorem split_pos_std (start : Int) (L n : Nat) (h1 : 1 ≤ n) (hn : n ≤ L) :
    ∀ p ∈ _split start L n, 0 < p.2 := by
  unfold _split
  rw [if_pos hn]
  intro p hp
  rcases List.mem_append.mp hp with hp | hp
  · obtain ⟨i, hi, rfl⟩ := List.mem_map.mp hp
    show (0 : Int) < bp start L n (i + 1) - bp start L n i
    unfold bp
    have h2 : L * i + n ≤ L * (i + 1) := by
      rw [Nat.mul_succ]
      omega
    have h3 : (L * i + n) / n ≤ L * (i + 1) / n := Nat.div_le_div_right h2
    rw [Nat.add_div_right _ (by omega)] at h3
    omega
  · rw [List.mem_singleton] at hp
    subst hp
    show (0 : Int) < start + (L : Int) - bp start L n (n - 1)
    unfold bp
    obtain ⟨k, rfl⟩ : ∃ k, n = k + 1 := ⟨n - 1, by omega⟩
    obtain ⟨m, rfl⟩ : ∃ m, L = m + 1 := ⟨L - 1, by omega⟩
    have hkm : k ≤ m := by omega
    have h2 : (m + 1) * k ≤ m * (k + 1) := by nlinarith
    have h3 : (m + 1) * k / (k + 1) ≤ m * (k + 1) / (k + 1) :=
      Nat.div_le_div_right h2
    rw [Nat.mul_div_cancel m (by omega)] at h3
    simp only [Nat.add_sub_cancel]
    omega

theorem split_take_pos (L K : Nat) (hK : K ≤ L) :
    ∀ p ∈ (_split 0 L (K + 1)).take K, 0 < p.2 := by
  by_cases hstd : K + 1 ≤ L
  · intro p hp
    exact split_pos_std 0 L (K + 1) (by omega) hstd p (List.mem_of_mem_take hp)
  · have hLK : L = K := by omega
    subst hLK
    intro p hp
    unfold _split at hp
    rw [if_neg (by omega)] at hp
    have heq := splitSpecial_eq 0 L (L + 1) 0 (by omega)
    simp only [Nat.cast_zero, add_zero, Nat.zero_add, zero_add] at heq
    rw [heq, ← List.map_take, List.take_range] at hp
    obtain ⟨i, hi, rfl⟩ := List.mem_map.mp hp
    rw [List.mem_range] at hi
    have hiL : i < L := by omega
    rw [if_pos hiL]
    exact Int.zero_lt_one

theorem splitSend_concat (reg : Registry) (data : List PyVal) (name : String)
    (hname : name ≠ "op") :
    ∀ (workers : List WorkerState) (ps : List (Int × Int)),
      (∀ w ∈ workers, w.alive = true) →
      workers.length ≤ ps.length →
      (∀ p ∈ ps.take workers.length, 0 < p.2) →
      collectLists ((List.zipWith (splitSendWorker reg data name) workers ps).map
        (fun w => (workerHandle reg w (getVarReq name)).2)) =
      some (((ps.take workers.length).map
        (fun p => pySlice data p.1 p.2)).flatten) := by
  intro workers
  induction workers with
  | nil =>
      intro ps _ _ _
      simp [collectLists]
  | cons w ws ih =>
      intro ps halive hlen hpos
      cases ps with
      | nil => simp at hlen
      | cons p ps' =>
          have hp : 0 < p.2 := hpos p (by simp [List.take_succ_cons])
          have hw : w.alive = true := halive w (List.mem_cons_self _ _)
          have hsend : splitSendWorker reg data name w p =
              ⟨true, mergeStore w.store
                (setDataReq name (.pylist (pySlice data p.1 p.2)))⟩ := by
            unfold splitSendWorker
            rw [if_pos hp,
              workerHandle_alive hw (stepWorker_set_data (setDataReq_op hname _))]
          have hreply : (workerHandle reg
              (⟨true, mergeStore w.store
                (setDataReq name (.pylist (pySlice data p.1 p.2)))⟩ : WorkerState)
              (getVarReq name)).2 = some (.pylist (pySlice data p.1 p.2)) := by
            rw [workerHandle_alive rfl
              (stepWorker_get_var_found (getVarReq_op name) (getVarReq_var name)
                (mergeStore_setData_name hname _))]
          have hlen' : ws.length ≤ ps'.length := by
            simp at hlen
            omega
          have hpos' : ∀ q ∈ ps'.take ws.length, 0 < q.2 := by
            intro q hq
            refine hpos q ?_
            simp only [List.length_cons, List.take_succ_cons]
            exact List.mem_cons_of_mem _ hq
          have hih := ih ps' (fun a ha => halive a (List.mem_cons_of_mem _ ha))
            hlen' hpos'
          simp only [List.zipWith_cons_cons, List.map_cons, hsend, hreply,
            List.take_succ_cons, List.flatten_cons]
          simp [collectLists, hih]

theorem tiles_slices_main (data : List PyVal) :
    ∀ (ps : List (Int × Int)) (q : Int × Int) (j : Int),
      tilesExactly j (data.length : Int) (ps ++ [q]) → 0 ≤ j →
      ((ps.map (fun p => pySlice data p.1 p.2)).flatten) ++
        data.drop q.1.toNat = data.drop j.toNat := by
  intro ps
  induction ps with
  | nil =>
      intro q j h h0
      obtain ⟨o, l⟩ := q
      obtain ⟨ho, hl, ht⟩ := h
      simp only [List.map_nil, List.flatten_nil, List.nil_append]
      rw [ho]
  | cons p ps' ih =>
      intro q j h h0
      obtain ⟨o, l⟩ := p
      obtain ⟨ho, hl, ht⟩ := h
      subst ho
      have hih := ih q (o + l) ht (by omega)
      simp only [List.map_cons, List.flatten_cons, List.append_assoc]
      rw [hih]
      show pySlice data o l ++ data.drop (o + l).toNat = data.drop o.toNat
      unfold pySlice
      have h1 : (o + l).toNat = o.toNat + l.toNat := by omega
      rw [h1, ← List.drop_drop]
      exact List.take_append_drop _ _

theorem dictInsert_self (d : Dict) (k : String) (v : PyVal) :
    dictInsert d k v k = some v := by
  simp [dictInsert]

/-- C4 (amended): the scatter/gather round trip
`split_list_and_send` then `concat_var_into_list` reproduces the data
exactly, in order, provided the variable name is not the reserved
discriminant `"op"` and the data is at least as long as the worker count
(so no worker's slice is empty and skipped). -/
theorem C4_scatter_roundtrip (reg : Registry) (s : PoolState)
    (data : List PyVal) (name : String) (hname : name ≠ "op")
    (halive : ∀ w ∈ s.workers, w.alive = true)
    (hK : s.workers.length ≤ data.length) :
    (concat_var_into_list reg (split_list_and_send reg s data name) name).2
      = some data := by
  have h1n : 1 ≤ s.workers.length + 1 := by omega
  have htiles : tilesExactly 0 (data.length : Int)
      (_split 0 data.length (s.workers.length + 1)) := by
    have h := split_tilesExactly 0 data.length (s.workers.length + 1) h1n
    simpa using h
  have hlen : (_split 0 data.length (s.workers.length + 1)).length
      = s.workers.length + 1 := split_length _ _ _ h1n
  have hne : _split 0 data.length (s.workers.length + 1) ≠ [] := by
    intro h
    rw [h] at hlen
    simp at hlen
  have hglast : (_split 0 data.length (s.workers.length + 1)).getLast? =
      some ((_split 0 data.length (s.workers.length + 1)).getLast hne) :=
    List.getLast?_eq_getLast _ hne
  have htake : (_split 0 data.length (s.workers.length + 1)).take
        s.workers.length
      = (_split 0 data.length (s.workers.length + 1)).dropLast := by
    rw [List.dropLast_eq_take, hlen]
    simp
  have htilesd : tilesExactly 0 (data.length : Int)
      ((_split 0 data.length (s.workers.length + 1)).dropLast ++
        [(_split 0 data.length (s.workers.length + 1)).getLast hne]) := by
    rw [List.dropLast_append_getLast hne]
    exact htiles
  have hassemble := tiles_slices_main data
    (_split 0 data.length (s.workers.length + 1)).dropLast
    ((_split 0 data.length (s.workers.length + 1)).getLast hne) 0 htilesd
    (le_refl 0)
  have hcollect := splitSend_concat reg data name hname s.workers
    (_split 0 data.length (s.workers.length + 1)) halive
    (by rw [hlen]; omega)
    (split_take_pos data.length s.workers.length hK)
  rw [htake] at hcollect
  simp only [concat_var_into_list, split_list_and_send, List.map_map,
    Function.comp_def, hcollect, hglast, Option.getD_some, pySliceFrom,
    dictInsert_self, hassemble, Int.toNat_zero, List.drop_zero]

/-- C4 counterexample: the round trip fails as stated for every pool size
and every sequence.  With one worker: (a) for the empty sequence the
worker's slice is empty and skipped, so its later `get_var` lookup raises
KeyError and `concat_var_into_list` blocks on `recv` (no result); (b) for
the variable name `"op"` the scatter request collapses into an unknown-
discriminant message that the worker ignores, with the same blocked
outcome. -/
theorem C4_scatter_roundtrip_counterexample :
    (concat_var_into_list regEx (split_list_and_send regEx pool1 [] "x") "x").2
      = none ∧
    (concat_var_into_list regEx (split_list_and_send regEx pool1
        [PyVal.int 1, PyVal.int 2] "op") "op").2 = none :=
  ⟨rfl, rfl⟩

/-- Witness for C4 (amended): one worker, two elements, a safe name. -/
theorem C4_scatter_roundtrip_witness :
    (concat_var_into_list regEx (split_list_and_send regEx pool1
        [PyVal.int 1, PyVal.int 2] "x") "x").2
      = some [PyVal.int 1, PyVal.int 2] :=
  C4_scatter_roundtrip regEx pool1 [PyVal.int 1, PyVal.int 2] "x"
    (by decide)
    (by intro w hw; rw [List.mem_singleton.mp hw]; rfl)
    (by decide)
